/-
Verification of the `ringbuffer` Go package (lucianoq/ringbuffer) against its
natural-language specification.

The development shallowly embeds `ringbuffer.go` into Lean:
  * a Go `[]byte` slice becomes a `List Byte` (every slice in this package is
    produced by `make([]byte, n)` or by copying into such a slice, so its
    capacity always equals its length, and `cap(r.buf) = len(r.buf)`);
  * the receiver mutation of the Go methods becomes explicit state passing on
    the `RingBuffer` structure;
  * the fallibility of `makeSlice` (Go recovers a `make` panic and turns it
    into an error) becomes an explicit allocation oracle `alloc : Nat → Bool`
    telling whether an allocation of a given size succeeds.
-/
import Mathlib

namespace Ringbuffer

/-- Go `byte`. -/
abbrev Byte := UInt8

/-- The growing factor `expansionFactor` of the underlying slice. -/
def expansionFactor : Nat := 2

/-- Fuel-indexed form of the `Grow` loop
`for newSize < size { newSize *= expansionFactor }`.
Each iteration multiplies `newSize` by `expansionFactor`; the fuel only bounds
the number of iterations so that the function is structurally recursive. -/
def doubleUntilF (fuel size newSize : Nat) : Nat :=
  match fuel with
  | 0 => newSize
  | fuel + 1 =>
    if newSize < size then doubleUntilF fuel size (newSize * expansionFactor)
    else newSize

/-- The loop `for newSize < size { newSize *= expansionFactor }` of `Grow`.
`Grow` only runs the loop from `newSize ≥ 1`, where at most `size` doublings
are needed (`2 ^ size ≥ size`), so `size` fuel is enough; the characteristic
equation `doubleUntil_unfold` below recovers the exact loop semantics. -/
def doubleUntil (size newSize : Nat) : Nat :=
  doubleUntilF size size newSize

/-- Allocation `makeSlice` of a slice of size `n`; Go recovers an allocation
panic into an error, modelled by the allocation oracle `alloc`. -/
def makeSlice (alloc : Nat → Bool) (n : Nat) : Except String (List Byte) :=
  if alloc n then Except.ok (List.replicate n 0) else Except.error "cant make slice"

/-- Go's built-in `copy(dst, src)`: copies `min (len dst) (len src)` bytes
from the front of `src` to the front of `dst` (the rest of `dst` is kept) and
returns the new `dst` together with the number of bytes copied. -/
def goCopy (dst src : List Byte) : List Byte × Nat :=
  let n := min dst.length src.length
  (src.take n ++ dst.drop n, n)

/-- Go's `copy(buf[i:], src)`: copy into the subslice of `buf` that starts at
index `i`, returning the updated `buf` and the number of bytes copied. -/
def copyAt (buf : List Byte) (i : Nat) (src : List Byte) : List Byte × Nat :=
  let r := goCopy (buf.drop i) src
  (buf.take i ++ r.1, r.2)

/-- The `RingBuffer` struct of the package. -/
structure RingBuffer where
  buf : List Byte
  pos : Nat
  written : Nat
  ringMode : Bool
  maxSize : Nat
  deriving DecidableEq, Repr

namespace RingBuffer

/-- The constructor `NewRingBuffer(initialSize, maxSize)`. -/
def NewRingBuffer (initialSize maxSize : Nat) : RingBuffer :=
  { buf := List.replicate (if initialSize > maxSize then maxSize else initialSize) 0
    pos := 0
    written := 0
    ringMode := false
    maxSize := maxSize }

/-- The `Cap()` accessor returns `cap(r.buf)`; every buffer of the package is
allocated by `make([]byte, n)` (capacity = length), so this is the length of
`r.buf`. -/
def Cap (r : RingBuffer) : Nat :=
  r.buf.length

/-- The `Written()` accessor. -/
def Written (r : RingBuffer) : Nat :=
  r.written

/-- The `Bytes()` method: `append(r.buf[r.pos:], r.buf[:r.pos]...)` in ring
mode (the rotation placing the byte at `pos` first), `r.buf[:r.pos]`
otherwise. -/
def Bytes (r : RingBuffer) : List Byte :=
  if r.ringMode then r.buf.drop r.pos ++ r.buf.take r.pos
  else r.buf.take r.pos

/-- The `Reset()` method. -/
def Reset (r : RingBuffer) : RingBuffer :=
  { r with written := 0, ringMode := false, pos := 0 }

/-- The `Grow(size)` method: double the buffer size (starting from 1 when it is 0) until
it can contain `size`, clamp at `maxSize`, then allocate the new slice and
copy the old content over.  Returns the error of `makeSlice` when the
allocation fails, in which case the receiver is left untouched. -/
def Grow (alloc : Nat → Bool) (size : Nat) (r : RingBuffer) :
    Except String Unit × RingBuffer :=
  let newSize := r.buf.length
  let newSize := if newSize = 0 then 1 else newSize
  let newSize := doubleUntil size newSize
  let newSize := if newSize ≥ r.maxSize then r.maxSize else newSize
  match makeSlice alloc newSize with
  | Except.error e => (Except.error e, r)
  | Except.ok newBuf => (Except.ok (), { r with buf := (goCopy newBuf r.buf).1 })

/-- The ring-mode write `writeRing(p)`.  If `p` is longer than the buffer, keep
only its last `len(buf)` bytes; otherwise copy to the end starting at `pos`,
set `pos` to 0, and copy any remainder from the beginning. -/
def writeRing (p : List Byte) (r : RingBuffer) :
    Except String Nat × RingBuffer :=
  let pLen := p.length
  let bufLen := r.buf.length
  if pLen > bufLen then
    (Except.ok pLen,
      { r with buf := (goCopy r.buf (p.drop (pLen - bufLen))).1
               pos := 0
               written := r.written + pLen })
  else
    let c := copyAt r.buf r.pos p
    let r := { r with buf := c.1, pos := 0 }
    let r := if pLen > c.2 then
        let c2 := goCopy r.buf (p.drop c.2)
        { r with buf := c2.1, pos := c2.2 }
      else r
    (Except.ok pLen, { r with written := r.written + pLen })

/-- The tail of `write` after the (possible) growth: if the buffer can now
fit the input at `pos`, copy it there and advance, flipping to ring mode when
`pos` reaches `maxSize`; otherwise the buffer is full, switch to ring mode
and delegate the write to `writeRing`. -/
def writeAfterGrow (p : List Byte) (r : RingBuffer) :
    Except String Nat × RingBuffer :=
  let pLen := p.length
  if r.buf.length ≥ r.pos + pLen then
    let c := copyAt r.buf r.pos p
    let n := c.2
    let r := { r with buf := c.1, written := r.written + n, pos := r.pos + n }
    let r := if r.pos = r.maxSize then { r with ringMode := true, pos := 0 }
             else r
    (Except.ok n, r)
  else
    let r := { r with ringMode := true }
    writeRing p r

/-- The dynamic-array-mode write `write(p)`.  Grow if the buffer cannot hold
the input at `pos`, propagating a growth error with the receiver untouched;
then run `writeAfterGrow` on the (possibly grown) state. -/
def write (alloc : Nat → Bool) (p : List Byte) (r : RingBuffer) :
    Except String Nat × RingBuffer :=
  let pLen := p.length
  if r.buf.length < r.pos + pLen then
    match Grow alloc (r.pos + pLen) r with
    | (Except.error e, r) => (Except.error e, r)
    | (Except.ok (), r) => writeAfterGrow p r
  else
    writeAfterGrow p r

/-- The `Write(p)` entry point: dispatch on the mode. -/
def Write (alloc : Nat → Bool) (p : List Byte) (r : RingBuffer) :
    Except String Nat × RingBuffer :=
  if r.ringMode then writeRing p r else write alloc p r

end RingBuffer

/-- Allocation oracle of a run in which every allocation succeeds. -/
def allocTrue : Nat → Bool := fun _ => true

/-- Allocation oracle of a run in which every allocation fails. -/
def allocFalse : Nat → Bool := fun _ => false

/-- Fold a sequence of (always successfully allocating) `Write` calls. -/
def writeList (ps : List (List Byte)) (r : RingBuffer) : RingBuffer :=
  ps.foldl (fun s p => (RingBuffer.Write allocTrue p s).2) r

/-- The operations a caller can perform after construction; write and grow
carry the outcome their allocations would have. -/
inductive Op where
  | writeOp (p : List Byte) (ok : Bool)
  | growOp (size : Nat) (ok : Bool)
  | bytesOp
  | resetOp
  deriving Repr

/-- Apply one operation to the state.  `Bytes` (and `String`, which merely
renders `Bytes`) does not mutate the receiver. -/
def applyOp (r : RingBuffer) (o : Op) : RingBuffer :=
  match o with
  | Op.writeOp p ok => (RingBuffer.Write (fun _ => ok) p r).2
  | Op.growOp size ok => (RingBuffer.Grow (fun _ => ok) size r).2
  | Op.bytesOp => r
  | Op.resetOp => RingBuffer.Reset r

/-- Run a sequence of operations from a state. -/
def run (ops : List Op) (r : RingBuffer) : RingBuffer :=
  ops.foldl applyOp r

/-- The last `n` elements of a list. -/
def lastN (n : Nat) (l : List Byte) : List Byte :=
  l.drop (l.length - n)

/-- The size `Grow` asks `makeSlice` for. -/
def growTarget (r : RingBuffer) (size : Nat) : Nat :=
  let n := if r.buf.length = 0 then 1 else r.buf.length
  let n := doubleUntil size n
  if n ≥ r.maxSize then r.maxSize else n

/-- The structural invariant of every reachable state: the cursor stays
inside the allocation, the allocation never exceeds the configured ceiling,
and in ring mode the allocation is exactly the ceiling. -/
def good (r : RingBuffer) : Prop :=
  r.pos ≤ r.buf.length ∧ r.buf.length ≤ r.maxSize ∧
    (r.ringMode = true → r.buf.length = r.maxSize)

/-- Spec-side description of the wrapped-mode copy, following the
specification's words: copy as many bytes of `p` as fit from the cursor `c`
to the end of the storage, and copy any remainder starting at index 0
(overwriting the front); everything else is kept.  Compared against the
buffer `writeRing` actually produces. -/
def ringWriteSpec (buf : List Byte) (c : Nat) (p : List Byte) : List Byte :=
  let fit := min (buf.length - c) p.length
  let rem := p.drop fit
  rem ++ ((buf.take c).drop rem.length) ++ p.take fit ++ buf.drop (c + fit)

/-- The concrete wrapped state of the specification's walkthrough: storage
`"abcdefg"`, cursor 2, ring mode, maximum capacity 7. -/
def c2State : RingBuffer :=
  RingBuffer.mk [97, 98, 99, 100, 101, 102, 103] 2 14 true 7

/-- The bytes of `"123"`, the input of the walkthrough write. -/
def c2Input : List Byte := [49, 50, 51]

/-- The decimal strings `"0"` through `"19"` as byte sequences: the twenty
writes of the walkthrough scenario. -/
def c8Writes : List (List Byte) :=
  [[48], [49], [50], [51], [52], [53], [54], [55], [56], [57],
   [49, 48], [49, 49], [49, 50], [49, 51], [49, 52],
   [49, 53], [49, 54], [49, 55], [49, 56], [49, 57]]

/-! ### Basic facts about the copy and growth primitives -/

open RingBuffer

theorem goCopy_snd (dst src : List Byte) :
    (goCopy dst src).2 = min dst.length src.length := rfl

theorem goCopy_fst_length (dst src : List Byte) :
    ((goCopy dst src).1).length = dst.length := by
  simp only [goCopy, List.length_append, List.length_take, List.length_drop]
  omega

theorem copyAt_snd (buf : List Byte) (i : Nat) (src : List Byte) :
    (copyAt buf i src).2 = min (buf.length - i) src.length := by
  simp [copyAt, goCopy]

theorem copyAt_fst_length (buf : List Byte) (i : Nat) (src : List Byte) :
    ((copyAt buf i src).1).length = buf.length := by
  simp only [copyAt, goCopy, List.length_append, List.length_take,
    List.length_drop]
  omega

theorem doubleUntilF_ge_start (fuel size n : Nat) : n ≤ doubleUntilF fuel size n := by
  induction fuel generalizing n with
  | zero => simp [doubleUntilF]
  | succ f ih =>
    simp only [doubleUntilF]
    split
    · exact le_trans (by simp only [expansionFactor]; omega) (ih _)
    · exact le_refl n

theorem doubleUntilF_ge_size :
    ∀ fuel size n : Nat, 1 ≤ n → size ≤ n * 2 ^ fuel → size ≤ doubleUntilF fuel size n := by
  intro fuel
  induction fuel with
  | zero =>
    intro size n h1 h2
    simpa [doubleUntilF] using h2
  | succ f ih =>
    intro size n h1 h2
    simp only [doubleUntilF]
    split
    · refine ih size (n * expansionFactor) (by simp only [expansionFactor]; omega) ?_
      have hh : n * 2 ^ (f + 1) = n * expansionFactor * 2 ^ f := by
        simp only [expansionFactor]
        ring
      omega
    · omega

theorem doubleUntilF_stable :
    ∀ fuel size n : Nat, 1 ≤ n → size ≤ n * 2 ^ fuel →
      doubleUntilF (fuel + 1) size n = doubleUntilF fuel size n := by
  intro fuel
  induction fuel with
  | zero =>
    intro size n h1 h2
    show (if n < size then doubleUntilF 0 size (n * expansionFactor) else n) = n
    split
    · rename_i hlt
      exact absurd hlt (by simp only [pow_zero, mul_one] at h2; omega)
    · rfl
  | succ f ih =>
    intro size n h1 h2
    show (if n < size then doubleUntilF (f + 1) size (n * expansionFactor) else n) =
      (if n < size then doubleUntilF f size (n * expansionFactor) else n)
    split
    · refine ih size (n * expansionFactor) (by simp only [expansionFactor]; omega) ?_
      have hh : n * 2 ^ (f + 1) = n * expansionFactor * 2 ^ f := by
        simp only [expansionFactor]
        ring
      omega
    · rfl

/-- The characteristic equation of the Go loop
`for newSize < size { newSize *= expansionFactor }`, valid from any positive
start (and `Grow` always starts it at a positive `newSize`). -/
theorem doubleUntil_unfold (size n : Nat) (h : 1 ≤ n) :
    doubleUntil size n =
      if n < size then doubleUntil size (n * expansionFactor) else n := by
  by_cases hlt : n < size
  · rw [if_pos hlt]
    obtain ⟨s, rfl⟩ : ∃ s, size = s + 1 := ⟨size - 1, by omega⟩
    show doubleUntilF (s + 1) (s + 1) n = doubleUntilF (s + 1) (s + 1) (n * expansionFactor)
    have hL : doubleUntilF (s + 1) (s + 1) n = doubleUntilF s (s + 1) (n * expansionFactor) := by
      show (if n < s + 1 then doubleUntilF s (s + 1) (n * expansionFactor) else n) = _
      rw [if_pos hlt]
    rw [hL]
    refine (doubleUntilF_stable s (s + 1) (n * expansionFactor)
      (by simp only [expansionFactor]; omega) ?_).symm
    have h1 : s + 1 < 2 ^ (s + 1) := Nat.lt_two_pow (s + 1)
    have h2 : 1 * 2 ^ (s + 1) ≤ n * 2 ^ (s + 1) := Nat.mul_le_mul_right _ h
    have hh : n * expansionFactor * 2 ^ s = n * 2 ^ (s + 1) := by
      simp only [expansionFactor]
      ring
    omega
  · rw [if_neg hlt]
    cases size with
    | zero => rfl
    | succ s =>
      show (if n < s + 1 then doubleUntilF s (s + 1) (n * expansionFactor) else n) = n
      rw [if_neg hlt]

theorem doubleUntil_ge_start (size n : Nat) : n ≤ doubleUntil size n :=
  doubleUntilF_ge_start _ _ _

theorem doubleUntil_ge_size (size n : Nat) (h : 1 ≤ n) : size ≤ doubleUntil size n := by
  refine doubleUntilF_ge_size _ _ _ h ?_
  have h1 : size ≤ 2 ^ size := le_of_lt (Nat.lt_two_pow size)
  have h2 : 1 * 2 ^ size ≤ n * 2 ^ size := Nat.mul_le_mul_right _ h
  omega

theorem doubleUntilF_pow2 :
    ∀ fuel t j : Nat, t ≤ 2 ^ j * 2 ^ fuel →
      doubleUntilF fuel t (2 ^ j) = 2 ^ max j (Nat.clog 2 t) := by
  intro fuel
  induction fuel with
  | zero =>
    intro t j h
    simp only [doubleUntilF]
    have hle : Nat.clog 2 t ≤ j := (Nat.le_pow_iff_clog_le one_lt_two).1 (by simpa using h)
    rw [Nat.max_eq_left hle]
  | succ f ih =>
    intro t j h
    simp only [doubleUntilF]
    split
    · have hmul : 2 ^ j * expansionFactor = 2 ^ (j + 1) := by
        simp only [expansionFactor]
        ring
      rw [hmul, ih t (j + 1) (by have hh : 2 ^ j * 2 ^ (f + 1) = 2 ^ (j + 1) * 2 ^ f := by ring
                                 omega)]
      have hgt : ¬ t ≤ 2 ^ j := by omega
      have hclog : j + 1 ≤ Nat.clog 2 t := by
        by_contra hc
        exact hgt ((Nat.le_pow_iff_clog_le one_lt_two).2 (by omega))
      rw [Nat.max_eq_right hclog, Nat.max_eq_right (by omega)]
    · have hle : Nat.clog 2 t ≤ j :=
        (Nat.le_pow_iff_clog_le one_lt_two).1 (by omega)
      rw [Nat.max_eq_left hle]

theorem doubleUntil_one (t : Nat) : doubleUntil t 1 = 2 ^ Nat.clog 2 t := by
  have h := doubleUntilF_pow2 t t 0 (by simpa using le_of_lt (Nat.lt_two_pow t))
  simpa [doubleUntil] using h

/-! ### State-component lemmas for the operations -/

theorem writeRing_fst (p : List Byte) (r : RingBuffer) :
    (writeRing p r).1 = Except.ok p.length := by
  simp only [writeRing]
  split <;> simp

theorem writeRing_written (p : List Byte) (r : RingBuffer) :
    ((writeRing p r).2).written = r.written + p.length := by
  simp only [writeRing]
  split
  · rfl
  · split <;> rfl

theorem writeRing_buf_length (p : List Byte) (r : RingBuffer) :
    ((writeRing p r).2).buf.length = r.buf.length := by
  simp only [writeRing]
  split
  · simp [goCopy_fst_length]
  · split <;> simp [goCopy_fst_length, copyAt_fst_length]

theorem writeRing_ringMode (p : List Byte) (r : RingBuffer) :
    ((writeRing p r).2).ringMode = r.ringMode := by
  simp only [writeRing]
  split
  · rfl
  · split <;> rfl

theorem writeRing_maxSize (p : List Byte) (r : RingBuffer) :
    ((writeRing p r).2).maxSize = r.maxSize := by
  simp only [writeRing]
  split
  · rfl
  · split <;> rfl

theorem writeRing_pos_le (p : List Byte) (r : RingBuffer) :
    ((writeRing p r).2).pos ≤ r.buf.length := by
  simp only [writeRing]
  split
  · simp
  · split
    · simp only [goCopy_snd, copyAt_fst_length]
      omega
    · simp

theorem Grow_eq (alloc : Nat → Bool) (size : Nat) (r : RingBuffer) :
    Grow alloc size r =
      if alloc (growTarget r size) then
        (Except.ok (),
          { r with buf := (goCopy (List.replicate (growTarget r size) 0) r.buf).1 })
      else (Except.error "cant make slice", r) := by
  show (match makeSlice alloc (growTarget r size) with
    | Except.error e => (Except.error e, r)
    | Except.ok newBuf => (Except.ok (), { r with buf := (goCopy newBuf r.buf).1 })) = _
  cases h : alloc (growTarget r size) with
  | false => simp [makeSlice, h]
  | true => simp [makeSlice, h]

/-- The four facts about the size `Grow` allocates: it never exceeds
`maxSize`; it is at least `min size maxSize`; it is at least the current
buffer length whenever that length respects the ceiling; and a buffer already
at the ceiling is re-allocated at exactly the ceiling. -/
theorem growTarget_props (r : RingBuffer) (size : Nat) :
    growTarget r size ≤ r.maxSize ∧
      min size r.maxSize ≤ growTarget r size ∧
      (r.buf.length ≤ r.maxSize → r.buf.length ≤ growTarget r size) ∧
      (r.buf.length = r.maxSize → growTarget r size = r.maxSize) := by
  simp only [growTarget]
  set s := (if r.buf.length = 0 then 1 else r.buf.length) with hs
  have hs1 : 1 ≤ s := by rw [hs]; split <;> omega
  have hsl : r.buf.length ≤ s := by rw [hs]; split <;> omega
  have hsl2 : s ≤ r.buf.length + 1 := by rw [hs]; split <;> omega
  have hd1 : s ≤ doubleUntil size s := doubleUntil_ge_start _ _
  have hd2 : size ≤ doubleUntil size s := doubleUntil_ge_size _ _ hs1
  refine ⟨?_, ?_, ?_, ?_⟩
  · split <;> omega
  · split <;> omega
  · intro h
    split <;> omega
  · intro h
    split <;> omega

theorem Grow_snd_buf_length (alloc : Nat → Bool) (size : Nat) (r : RingBuffer) :
    ((Grow alloc size r).2).buf.length = r.buf.length ∨
      ((Grow alloc size r).2).buf.length = growTarget r size := by
  rw [Grow_eq]
  split
  · right
    simp [goCopy_fst_length]
  · left
    rfl

theorem Grow_snd_fields (alloc : Nat → Bool) (size : Nat) (r : RingBuffer) :
    ((Grow alloc size r).2).pos = r.pos ∧ ((Grow alloc size r).2).written = r.written ∧
      ((Grow alloc size r).2).ringMode = r.ringMode ∧
      ((Grow alloc size r).2).maxSize = r.maxSize := by
  rw [Grow_eq]
  split <;> exact ⟨rfl, rfl, rfl, rfl⟩

theorem Grow_error_snd (alloc : Nat → Bool) (size : Nat) (r : RingBuffer) (e : String)
    (h : (Grow alloc size r).1 = Except.error e) : (Grow alloc size r).2 = r := by
  rw [Grow_eq] at h ⊢
  split at h
  · exact absurd h (by simp)
  · rename_i halloc
    rw [if_neg halloc]

theorem Grow_ok_snd (alloc : Nat → Bool) (size : Nat) (r : RingBuffer)
    (h : (Grow alloc size r).1 = Except.ok ()) :
    ((Grow alloc size r).2).buf.length = growTarget r size := by
  rw [Grow_eq] at h ⊢
  split at h
  · rename_i halloc
    rw [if_pos halloc]
    simp [goCopy_fst_length]
  · exact absurd h (by simp)

theorem writeAfterGrow_fst (p : List Byte) (r : RingBuffer) :
    (writeAfterGrow p r).1 = Except.ok p.length := by
  rw [writeAfterGrow]
  split
  · rename_i hge
    simp only [copyAt_snd]
    congr 1
    omega
  · exact writeRing_fst p _

theorem write_error_snd (alloc : Nat → Bool) (p : List Byte) (r : RingBuffer)
    (e : String) (h : (write alloc p r).1 = Except.error e) :
    (write alloc p r).2 = r := by
  rcases hw : write alloc p r with ⟨res, r2⟩
  have hres : res = Except.error e := by rw [hw] at h; exact h
  subst hres
  show r2 = r
  rw [write] at hw
  by_cases hc : r.buf.length < r.pos + p.length
  · rw [if_pos hc] at hw
    split at hw
    · rename_i e1 r1 heq
      have h2 : (Grow alloc (r.pos + p.length) r).2 = r :=
        Grow_error_snd alloc (r.pos + p.length) r e1 (by rw [heq])
      rw [heq] at h2
      simp only [Prod.mk.injEq] at hw
      rw [← hw.2]
      exact h2
    · rename_i r1 heq
      have hf := writeAfterGrow_fst p r1
      rw [hw] at hf
      simp at hf
  · rw [if_neg hc] at hw
    have hf := writeAfterGrow_fst p r
    rw [hw] at hf
    simp at hf

/-! ### C10 — wrapped-mode writes never fail and accept everything -/

/-- C10: for every wrapped-mode state and every input `p` (empty, short, or
longer than the maximum capacity alike), `Write p` performs no allocation, so
it cannot fail: it returns `len p` with no error, whatever the allocation
oracle says. -/
theorem c10_ring_write_infallible (alloc : Nat → Bool) (p : List Byte)
    (r : RingBuffer) (h : r.ringMode = true) :
    (Write alloc p r).1 = Except.ok p.length := by
  simp only [Write, h, if_true]
  exact writeRing_fst p r

/-- Witness for C10 at a concrete wrapped state, with an input longer than the
maximum capacity and an allocation oracle that always fails. -/
theorem c10_ring_write_infallible_witness :
    (RingBuffer.mk [0, 0] 0 2 true 2).ringMode = true ∧
      (Write allocFalse [1, 2, 3] (RingBuffer.mk [0, 0] 0 2 true 2)).1 =
        Except.ok 3 :=
  ⟨rfl, c10_ring_write_infallible allocFalse [1, 2, 3] _ rfl⟩

/-! ### C9 — a failed growth leaves the state untouched -/

/-- C9: whenever `Grow` fails (called directly, or from `Write` through
`write`), the operation surfaces the error and the resulting state is exactly
the state before the call: no field is mutated on the error path. -/
theorem c9_grow_failure_no_mutation :
    (∀ (alloc : Nat → Bool) (size : Nat) (r : RingBuffer) (e : String),
        (Grow alloc size r).1 = Except.error e → (Grow alloc size r).2 = r) ∧
      ∀ (alloc : Nat → Bool) (p : List Byte) (r : RingBuffer) (e : String),
        (Write alloc p r).1 = Except.error e → (Write alloc p r).2 = r := by
  constructor
  · exact fun alloc size r e h => Grow_error_snd alloc size r e h
  · intro alloc p r e h
    by_cases hr : r.ringMode = true
    · rw [Write, if_pos hr, writeRing_fst] at h
      exact absurd h (by simp)
    · rw [Write, if_neg hr] at h ⊢
      exact write_error_snd alloc p r e h

/-- Witness for C9: with an always-failing allocator, both a direct `Grow`
and a `Write` that needs to grow report the error and return the untouched
constructor state. -/
theorem c9_grow_failure_no_mutation_witness :
    ((Grow allocFalse 3 (NewRingBuffer 0 5)).1 = Except.error "cant make slice" ∧
        (Grow allocFalse 3 (NewRingBuffer 0 5)).2 = NewRingBuffer 0 5) ∧
      (Write allocFalse [1] (NewRingBuffer 0 5)).1 = Except.error "cant make slice" ∧
        (Write allocFalse [1] (NewRingBuffer 0 5)).2 = NewRingBuffer 0 5 :=
  ⟨⟨rfl, c9_grow_failure_no_mutation.1 allocFalse 3 (NewRingBuffer 0 5) _ rfl⟩,
    rfl, c9_grow_failure_no_mutation.2 allocFalse [1] (NewRingBuffer 0 5) _ rfl⟩

/-! ### C7 — the written counter records true throughput -/

theorem writeAfterGrow_written (p : List Byte) (r : RingBuffer) :
    ((writeAfterGrow p r).2).written = r.written + p.length := by
  rw [writeAfterGrow]
  split
  · rename_i hge
    simp only [copyAt_snd]
    split
    · show r.written + min (r.buf.length - r.pos) p.length = r.written + p.length
      omega
    · show r.written + min (r.buf.length - r.pos) p.length = r.written + p.length
      omega
  · rw [writeRing_written]

theorem write_allocTrue_eq (p : List Byte) (r : RingBuffer) :
    write allocTrue p r =
      writeAfterGrow p
        (if r.buf.length < r.pos + p.length then
          (Grow allocTrue (r.pos + p.length) r).2
        else r) := by
  rw [write]
  by_cases hc : r.buf.length < r.pos + p.length
  · rw [if_pos hc, if_pos hc, Grow_eq]
    simp [allocTrue]
  · rw [if_neg hc, if_neg hc]

theorem Write_allocTrue_snd_written (p : List Byte) (r : RingBuffer) :
    ((Write allocTrue p r).2).written = r.written + p.length := by
  rw [Write]
  split
  · rw [writeRing_written]
  · rw [write_allocTrue_eq, writeAfterGrow_written]
    split
    · rw [(Grow_snd_fields allocTrue _ r).2.1]
    · rfl

theorem Write_allocTrue_fst (p : List Byte) (r : RingBuffer) :
    (Write allocTrue p r).1 = Except.ok p.length := by
  rw [Write]
  split
  · rw [writeRing_fst]
  · rw [write_allocTrue_eq, writeAfterGrow_fst]

theorem writeList_written (ps : List (List Byte)) (r0 : RingBuffer) :
    (writeList ps r0).written = r0.written + (ps.map List.length).sum := by
  induction ps generalizing r0 with
  | nil => simp [writeList]
  | cons p ps ih =>
    show (writeList ps ((Write allocTrue p r0).2)).written = _
    rw [ih, Write_allocTrue_snd_written]
    simp
    omega

/-- C7: the written counter after any sequence of successful writes is the
sum of the submitted lengths (the counter tracks throughput, not retained
bytes, so a wrapped-mode write longer than the capacity still adds its full
length), and every successful `Write` returns exactly the length of its
input. -/
theorem c7_written_counts_throughput :
    (∀ (ps : List (List Byte)) (r0 : RingBuffer),
        Written (writeList ps r0) = r0.written + (ps.map List.length).sum) ∧
      ∀ (alloc : Nat → Bool) (p : List Byte) (r : RingBuffer) (n : Nat),
        (Write alloc p r).1 = Except.ok n → n = p.length := by
  constructor
  · exact fun ps r0 => writeList_written ps r0
  · intro alloc p r n h
    by_cases hr : r.ringMode = true
    · rw [Write, if_pos hr, writeRing_fst] at h
      exact (Except.ok.inj h).symm
    · rw [Write, if_neg hr, write] at h
      split at h
      · split at h
        · simp at h
        · rw [writeAfterGrow_fst] at h
          exact (Except.ok.inj h).symm
      · rw [writeAfterGrow_fst] at h
        exact (Except.ok.inj h).symm

/-- Witness for C7: a concrete wrapped-state write of 30 bytes into capacity
4 returns 30 and bumps the counter by 30, and the hypothesis of the
return-length conjunct is discharged at a concrete successful write. -/
theorem c7_written_counts_throughput_witness :
    Written (writeList [[1], [2, 3]] (NewRingBuffer 0 4)) =
        0 + ([[1], [2, 3]].map List.length).sum ∧
      (Write allocTrue [5, 6] (NewRingBuffer 0 4)).1 = Except.ok 2 ∧
        2 = [5, 6].length :=
  ⟨c7_written_counts_throughput.1 [[1], [2, 3]] (NewRingBuffer 0 4), rfl,
    c7_written_counts_throughput.2 allocTrue [5, 6] (NewRingBuffer 0 4) 2 rfl⟩

/-! ### The structural invariant is preserved by every operation -/

theorem good_new (initialSize maxSize : Nat) : good (NewRingBuffer initialSize maxSize) := by
  refine ⟨Nat.zero_le _, ?_, ?_⟩
  · show (List.replicate (if initialSize > maxSize then maxSize else initialSize)
      (0 : Byte)).length ≤ maxSize
    rw [List.length_replicate]
    split <;> omega
  · intro h
    exact absurd h (by simp [NewRingBuffer])

theorem writeRing_good (p : List Byte) (r : RingBuffer) (h : good r) :
    good ((writeRing p r).2) := by
  obtain ⟨h1, h2, h3⟩ := h
  refine ⟨?_, ?_, ?_⟩
  · rw [writeRing_buf_length]
    exact writeRing_pos_le p r
  · rw [writeRing_buf_length, writeRing_maxSize]
    exact h2
  · rw [writeRing_buf_length, writeRing_maxSize, writeRing_ringMode]
    exact h3

theorem Grow_good (alloc : Nat → Bool) (size : Nat) (r : RingBuffer) (h : good r) :
    good ((Grow alloc size r).2) := by
  obtain ⟨h1, h2, h3⟩ := h
  obtain ⟨hp, hw, hr, hm⟩ := Grow_snd_fields alloc size r
  obtain ⟨g1, g2, g3, g4⟩ := growTarget_props r size
  simp only [good]
  rcases Grow_snd_buf_length alloc size r with hl | hl <;> rw [hp, hr, hm, hl]
  · exact ⟨h1, h2, h3⟩
  · exact ⟨le_trans h1 (g3 h2), g1, fun hring => g4 (h3 hring)⟩

theorem writeAfterGrow_maxSize (p : List Byte) (r : RingBuffer) :
    ((writeAfterGrow p r).2).maxSize = r.maxSize := by
  rw [writeAfterGrow]
  split
  · simp only [copyAt_snd]
    split <;> rfl
  · rw [writeRing_maxSize]

theorem writeAfterGrow_good (p : List Byte) (r : RingBuffer)
    (h1 : r.pos ≤ r.buf.length) (h2 : r.buf.length ≤ r.maxSize)
    (h3 : r.ringMode = true → r.buf.length = r.maxSize)
    (h4 : r.buf.length < r.pos + p.length → r.buf.length = r.maxSize) :
    good ((writeAfterGrow p r).2) := by
  simp only [good]
  rw [writeAfterGrow]
  split
  · rename_i hge
    simp only [copyAt_snd]
    split
    · rename_i hflip
      refine ⟨Nat.zero_le _, ?_, ?_⟩
      · show ((copyAt r.buf r.pos p).1).length ≤ r.maxSize
        rw [copyAt_fst_length]
        exact h2
      · intro _
        show ((copyAt r.buf r.pos p).1).length = r.maxSize
        rw [copyAt_fst_length]
        omega
    · rename_i hnoflip
      refine ⟨?_, ?_, ?_⟩
      · show r.pos + min (r.buf.length - r.pos) p.length ≤
          ((copyAt r.buf r.pos p).1).length
        rw [copyAt_fst_length]
        omega
      · show ((copyAt r.buf r.pos p).1).length ≤ r.maxSize
        rw [copyAt_fst_length]
        exact h2
      · intro hring
        show ((copyAt r.buf r.pos p).1).length = r.maxSize
        rw [copyAt_fst_length]
        exact h3 hring
  · rename_i hlt
    have h4' : r.buf.length = r.maxSize := h4 (by omega)
    have hg := writeRing_good p { r with ringMode := true } ⟨h1, h2, fun _ => h4'⟩
    simpa [good] using hg

theorem write_good (alloc : Nat → Bool) (p : List Byte) (r : RingBuffer)
    (h : good r) : good ((write alloc p r).2) := by
  obtain ⟨h1, h2, h3⟩ := h
  rw [write]
  split
  · rename_i hc
    split
    · rename_i e1 r1 heq
      have hr1 : r1 = r := by
        have hh := Grow_error_snd alloc (r.pos + p.length) r e1 (by rw [heq])
        rw [heq] at hh
        exact hh
      rw [hr1]
      exact ⟨h1, h2, h3⟩
    · rename_i r1 heq
      have hp : r1.pos = r.pos := by
        have hh := (Grow_snd_fields alloc (r.pos + p.length) r).1
        rw [heq] at hh
        exact hh
      have hrm : r1.ringMode = r.ringMode := by
        have hh := (Grow_snd_fields alloc (r.pos + p.length) r).2.2.1
        rw [heq] at hh
        exact hh
      have hm : r1.maxSize = r.maxSize := by
        have hh := (Grow_snd_fields alloc (r.pos + p.length) r).2.2.2
        rw [heq] at hh
        exact hh
      have hl : r1.buf.length = growTarget r (r.pos + p.length) := by
        have hh := Grow_ok_snd alloc (r.pos + p.length) r (by rw [heq])
        rw [heq] at hh
        exact hh
      obtain ⟨g1, g2, g3, g4⟩ := growTarget_props r (r.pos + p.length)
      refine writeAfterGrow_good p r1 ?_ ?_ ?_ ?_
      · rw [hp, hl]
        exact le_trans h1 (g3 h2)
      · rw [hl, hm]
        exact g1
      · rw [hrm, hl, hm]
        exact fun hring => g4 (h3 hring)
      · rw [hl, hp, hm]
        intro hlt
        omega
  · rename_i hc
    exact writeAfterGrow_good p r h1 h2 h3 (fun hlt => absurd hlt (by omega))

theorem Write_good (alloc : Nat → Bool) (p : List Byte) (r : RingBuffer)
    (h : good r) : good ((Write alloc p r).2) := by
  rw [Write]
  split
  · exact writeRing_good p r h
  · exact write_good alloc p r h

theorem Reset_good (r : RingBuffer) (h : good r) : good (Reset r) := by
  refine ⟨Nat.zero_le _, h.2.1, ?_⟩
  intro hr
  exact absurd hr (by simp [Reset])

theorem applyOp_good (r : RingBuffer) (o : Op) (h : good r) : good (applyOp r o) := by
  cases o with
  | writeOp p ok => exact Write_good _ p r h
  | growOp size ok => exact Grow_good _ size r h
  | bytesOp => exact h
  | resetOp => exact Reset_good r h

theorem Write_maxSize (alloc : Nat → Bool) (p : List Byte) (r : RingBuffer) :
    ((Write alloc p r).2).maxSize = r.maxSize := by
  rw [Write]
  split
  · exact writeRing_maxSize p r
  · rw [write]
    split
    · split
      · rename_i e1 r1 heq
        have hr1 : r1 = r := by
          have hh := Grow_error_snd alloc (r.pos + p.length) r e1 (by rw [heq])
          rw [heq] at hh
          exact hh
        rw [hr1]
      · rename_i r1 heq
        rw [writeAfterGrow_maxSize]
        have hh := (Grow_snd_fields alloc (r.pos + p.length) r).2.2.2
        rw [heq] at hh
        exact hh
    · exact writeAfterGrow_maxSize p r

theorem applyOp_maxSize (r : RingBuffer) (o : Op) :
    (applyOp r o).maxSize = r.maxSize := by
  cases o with
  | writeOp p ok => exact Write_maxSize _ p r
  | growOp size ok => exact (Grow_snd_fields _ size r).2.2.2
  | bytesOp => rfl
  | resetOp => rfl

theorem run_good (ops : List Op) (r : RingBuffer) (h : good r) :
    good (run ops r) := by
  induction ops generalizing r with
  | nil => exact h
  | cons o ops ih => exact ih (applyOp r o) (applyOp_good r o h)

theorem run_maxSize (ops : List Op) (r : RingBuffer) :
    (run ops r).maxSize = r.maxSize := by
  induction ops generalizing r with
  | nil => rfl
  | cons o ops ih =>
    show (run ops (applyOp r o)).maxSize = r.maxSize
    rw [ih (applyOp r o), applyOp_maxSize]

/-! ### Content of linear-mode writes -/

theorem copyAt_take (buf : List Byte) (i : Nat) (src : List Byte)
    (hi : i ≤ buf.length) (hfit : i + src.length ≤ buf.length) :
    ((copyAt buf i src).1).take (i + src.length) = buf.take i ++ src := by
  simp only [copyAt, goCopy]
  have hn : min (buf.drop i).length src.length = src.length := by
    rw [List.length_drop]
    omega
  rw [hn, List.take_length, List.take_append_eq_append_take]
  have him : (buf.take i).length = i := by
    rw [List.length_take]
    omega
  rw [him, List.take_take]
  have hm1 : min (i + src.length) i = i := by omega
  have hm2 : i + src.length - i = src.length := by omega
  rw [hm1, hm2, List.take_left]

theorem writeAfterGrow_fit_snd (p : List Byte) (r : RingBuffer)
    (hfit : r.pos + p.length ≤ r.buf.length) :
    (writeAfterGrow p r).2 =
      if r.pos + p.length = r.maxSize then
        { r with buf := (copyAt r.buf r.pos p).1, written := r.written + p.length,
                 pos := 0, ringMode := true }
      else
        { r with buf := (copyAt r.buf r.pos p).1, written := r.written + p.length,
                 pos := r.pos + p.length } := by
  rw [writeAfterGrow, if_pos (by omega : r.buf.length ≥ r.pos + p.length)]
  simp only [copyAt_snd]
  have hmin : min (r.buf.length - r.pos) p.length = p.length := by omega
  rw [hmin]

theorem Grow_allocTrue_fst (size : Nat) (r : RingBuffer) :
    (Grow allocTrue size r).1 = Except.ok () := by
  rw [Grow_eq]
  simp [allocTrue]

theorem Grow_allocTrue_take (size : Nat) (r : RingBuffer) (k : Nat)
    (hk : k ≤ growTarget r size) (hk2 : k ≤ r.buf.length) :
    ((Grow allocTrue size r).2).buf.take k = r.buf.take k := by
  rw [Grow_eq]
  simp only [allocTrue, if_true]
  show ((goCopy (List.replicate (growTarget r size) 0) r.buf).1).take k = r.buf.take k
  simp only [goCopy, List.length_replicate]
  rw [List.take_append_eq_append_take, List.take_take]
  have h1 : min k (min (growTarget r size) r.buf.length) = k := by omega
  have h2 : k - (r.buf.take (min (growTarget r size) r.buf.length)).length = 0 := by
    rw [List.length_take]
    omega
  rw [h1, h2]
  simp

theorem Write_ring_mono (alloc : Nat → Bool) (p : List Byte) (r : RingBuffer)
    (h : ((Write alloc p r).2).ringMode = false) : r.ringMode = false := by
  by_contra hr
  rw [Bool.not_eq_false] at hr
  rw [Write, if_pos hr, writeRing_ringMode] at h
  rw [hr] at h
  exact absurd h (by simp)

theorem writeList_ring_mono (ps : List (List Byte)) (r : RingBuffer)
    (h : (writeList ps r).ringMode = false) : r.ringMode = false := by
  induction ps generalizing r with
  | nil => exact h
  | cons p ps ih =>
    exact Write_ring_mono allocTrue p r (ih ((Write allocTrue p r).2) h)

theorem Write_linear_step (p : List Byte) (r : RingBuffer)
    (hr0 : r.ringMode = false) (h1 : r.pos ≤ r.buf.length)
    (h2 : r.buf.length ≤ r.maxSize)
    (hr' : ((Write allocTrue p r).2).ringMode = false) :
    ((Write allocTrue p r).2).pos = r.pos + p.length ∧
      ((Write allocTrue p r).2).buf.take (r.pos + p.length) =
        r.buf.take r.pos ++ p ∧
      r.pos + p.length ≤ ((Write allocTrue p r).2).buf.length ∧
      ((Write allocTrue p r).2).buf.length ≤ ((Write allocTrue p r).2).maxSize := by
  rw [Write, if_neg (by simp [hr0])] at hr' ⊢
  rw [write_allocTrue_eq] at hr' ⊢
  set r1 := (if r.buf.length < r.pos + p.length then
    (Grow allocTrue (r.pos + p.length) r).2 else r) with hr1def
  obtain ⟨g1, g2, g3, g4⟩ := growTarget_props r (r.pos + p.length)
  have hpos1 : r1.pos = r.pos := by
    rw [hr1def]
    split
    · exact (Grow_snd_fields allocTrue (r.pos + p.length) r).1
    · rfl
  have hmax1 : r1.maxSize = r.maxSize := by
    rw [hr1def]
    split
    · exact (Grow_snd_fields allocTrue (r.pos + p.length) r).2.2.2
    · rfl
  have hlen1 : r1.buf.length = growTarget r (r.pos + p.length) ∨
      r1.buf.length = r.buf.length := by
    rw [hr1def]
    split
    · exact Or.inl (Grow_ok_snd allocTrue (r.pos + p.length) r
        (Grow_allocTrue_fst (r.pos + p.length) r))
    · exact Or.inr rfl
  have hmin1 : min (r.pos + p.length) r.maxSize ≤ r1.buf.length := by
    rw [hr1def]
    split
    · rw [Grow_ok_snd allocTrue (r.pos + p.length) r
        (Grow_allocTrue_fst (r.pos + p.length) r)]
      exact g2
    · rename_i hc
      omega
  have hlenmax1 : r1.buf.length ≤ r.maxSize := by
    rcases hlen1 with hl | hl <;> omega
  have htake1 : r1.buf.take r.pos = r.buf.take r.pos := by
    rw [hr1def]
    split
    · exact Grow_allocTrue_take (r.pos + p.length) r r.pos
        (le_trans h1 (g3 h2)) h1
    · rfl
  by_cases hfit : r1.pos + p.length ≤ r1.buf.length
  · rw [writeAfterGrow_fit_snd p r1 hfit] at hr' ⊢
    by_cases hflip : r1.pos + p.length = r1.maxSize
    · rw [if_pos hflip] at hr'
      exact absurd hr' (by simp)
    · rw [if_neg hflip] at hr' ⊢
      refine ⟨?_, ?_, ?_, ?_⟩
      · show r1.pos + p.length = r.pos + p.length
        rw [hpos1]
      · show ((copyAt r1.buf r1.pos p).1).take (r.pos + p.length) =
          r.buf.take r.pos ++ p
        rw [← hpos1, copyAt_take r1.buf r1.pos p (by omega) (by omega), hpos1,
          htake1]
      · show r.pos + p.length ≤ ((copyAt r1.buf r1.pos p).1).length
        rw [copyAt_fst_length]
        omega
      · show ((copyAt r1.buf r1.pos p).1).length ≤ r1.maxSize
        rw [copyAt_fst_length, hmax1]
        exact hlenmax1
  · exfalso
    rw [writeAfterGrow] at hr'
    rw [if_neg (by omega : ¬ r1.buf.length ≥ r1.pos + p.length)] at hr'
    rw [writeRing_ringMode] at hr'
    exact absurd hr' (by simp)

theorem writeList_linear (ps : List (List Byte)) (h : List Byte) (r : RingBuffer)
    (hpos : r.pos = h.length) (htake : r.buf.take r.pos = h)
    (hple : r.pos ≤ r.buf.length) (hlm : r.buf.length ≤ r.maxSize)
    (hring : (writeList ps r).ringMode = false) :
    (writeList ps r).pos = (h ++ ps.flatten).length ∧
      (writeList ps r).buf.take ((writeList ps r).pos) = h ++ ps.flatten := by
  induction ps generalizing h r with
  | nil =>
    simp only [writeList, List.foldl_nil, List.flatten_nil, List.append_nil]
    exact ⟨hpos, htake⟩
  | cons p ps ih =>
    have hstep : (writeList (p :: ps) r) = writeList ps ((Write allocTrue p r).2) := rfl
    rw [hstep] at hring ⊢
    have hr' : ((Write allocTrue p r).2).ringMode = false :=
      writeList_ring_mono ps _ hring
    have hr0 : r.ringMode = false := Write_ring_mono allocTrue p r hr'
    obtain ⟨s1, s2, s3, s4⟩ := Write_linear_step p r hr0 hple hlm hr'
    have hpos' : ((Write allocTrue p r).2).pos = (h ++ p).length := by
      rw [s1, hpos, List.length_append]
    have htake' : ((Write allocTrue p r).2).buf.take ((Write allocTrue p r).2).pos =
        h ++ p := by
      rw [s1, s2, htake]
    have hple' : ((Write allocTrue p r).2).pos ≤ ((Write allocTrue p r).2).buf.length := by
      rw [s1]
      exact s3
    have hres := ih (h ++ p) ((Write allocTrue p r).2) hpos' htake' hple' s4 hring
    rw [List.flatten_cons, ← List.append_assoc]
    exact hres

/-! ### C3 — no data loss before the capacity is reached -/

/-- C3: starting from a state with cursor 0 and a legal allocation (freshly
constructed, or just after `Reset`), as long as the accumulator has not
entered ring mode, `Bytes` returns exactly the concatenation of all byte
sequences written so far, in submission order. -/
theorem c3_linear_bytes_concat (ps : List (List Byte)) (r0 : RingBuffer)
    (hpos : r0.pos = 0) (hlm : r0.buf.length ≤ r0.maxSize)
    (hring : (writeList ps r0).ringMode = false) :
    Bytes (writeList ps r0) = ps.flatten := by
  have hres := writeList_linear ps [] r0 (by rw [hpos]; rfl)
    (by rw [hpos]; rfl) (by omega) hlm hring
  rw [Bytes, if_neg (by simp [hring])]
  simpa using hres.2

/-- Witness for C3: two writes into a fresh buffer that stays linear produce
their concatenation. -/
theorem c3_linear_bytes_concat_witness :
    (NewRingBuffer 0 5).pos = 0 ∧
      (NewRingBuffer 0 5).buf.length ≤ (NewRingBuffer 0 5).maxSize ∧
      (writeList [[1], [2, 3]] (NewRingBuffer 0 5)).ringMode = false ∧
      Bytes (writeList [[1], [2, 3]] (NewRingBuffer 0 5)) = [[1], [2, 3]].flatten :=
  ⟨rfl, by decide, rfl,
    c3_linear_bytes_concat [[1], [2, 3]] (NewRingBuffer 0 5) rfl (by decide) rfl⟩

/-! ### C4 — the capacity ceiling holds after every operation -/

/-- C4: after any sequence of `Write`, `Grow`, `Bytes` and `Reset` calls on
an accumulator built with maximum capacity `maxCap` (with any arguments and
any allocation outcomes), the allocated size `Cap` never exceeds `maxCap`.
Since the operation list is arbitrary, the bound holds after every prefix,
i.e. after every operation. -/
theorem c4_capacity_ceiling (initialSize maxCap : Nat) (ops : List Op) :
    Cap (run ops (NewRingBuffer initialSize maxCap)) ≤ maxCap := by
  have hg := run_good ops _ (good_new initialSize maxCap)
  have hm := run_maxSize ops (NewRingBuffer initialSize maxCap)
  rw [Cap]
  exact le_trans hg.2.1 (le_of_eq hm)

/-! ### C5 — ring mode implies a full allocation -/

/-- C5: in every state reachable from construction by `Write`, `Grow`,
`Bytes` and `Reset` calls (with any arguments and allocation outcomes), being
in ring mode implies the allocation is exactly the configured maximum
capacity: the mode transition never happens with an under-sized buffer. -/
theorem c5_ring_mode_full_allocation (initialSize maxCap : Nat) (ops : List Op)
    (h : (run ops (NewRingBuffer initialSize maxCap)).ringMode = true) :
    Cap (run ops (NewRingBuffer initialSize maxCap)) = maxCap := by
  have hg := run_good ops _ (good_new initialSize maxCap)
  have hm := run_maxSize ops (NewRingBuffer initialSize maxCap)
  rw [Cap, hg.2.2 h, hm]
  rfl

/-- Witness for C5: a single write that exactly fills a fresh buffer flips it
to ring mode with the allocation at the ceiling. -/
theorem c5_ring_mode_full_allocation_witness :
    (run [Op.writeOp [0] true] (NewRingBuffer 1 1)).ringMode = true ∧
      Cap (run [Op.writeOp [0] true] (NewRingBuffer 1 1)) = 1 :=
  ⟨rfl, c5_ring_mode_full_allocation 1 1 [Op.writeOp [0] true] rfl⟩

/-! ### C2 — what a wrapped-mode write really does -/

theorem writeRing_snd_eq (p : List Byte) (r : RingBuffer)
    (hple : p.length ≤ r.buf.length) :
    (writeRing p r).2 =
      if p.length > min (r.buf.length - r.pos) p.length then
        { r with
            buf := (goCopy (copyAt r.buf r.pos p).1 (p.drop (min (r.buf.length - r.pos) p.length))).1,
            pos := (goCopy (copyAt r.buf r.pos p).1 (p.drop (min (r.buf.length - r.pos) p.length))).2,
            written := r.written + p.length }
      else
        { r with
            buf := (copyAt r.buf r.pos p).1,
            pos := 0,
            written := r.written + p.length } := by
  rw [writeRing, if_neg (by omega : ¬ p.length > r.buf.length)]
  simp only [copyAt_snd]
  split <;> rfl

theorem copyAt_ring_fit (p : List Byte) (r : RingBuffer)
    (hple : r.pos ≤ r.buf.length) (hfit : r.pos + p.length ≤ r.buf.length) :
    (copyAt r.buf r.pos p).1 =
      r.buf.take r.pos ++ p ++ r.buf.drop (r.pos + p.length) := by
  simp only [copyAt, goCopy]
  have hn : min (r.buf.drop r.pos).length p.length = p.length := by
    rw [List.length_drop]
    omega
  rw [hn, List.take_length, List.drop_drop]
  rw [List.append_assoc]

theorem copyAt_ring_wrap (p : List Byte) (r : RingBuffer)
    (hple : r.pos ≤ r.buf.length) (hwrap : r.buf.length ≤ r.pos + p.length) :
    (copyAt r.buf r.pos p).1 =
      r.buf.take r.pos ++ p.take (r.buf.length - r.pos) := by
  simp only [copyAt, goCopy]
  have hn : min (r.buf.drop r.pos).length p.length = r.buf.length - r.pos := by
    rw [List.length_drop]
    omega
  rw [hn, List.drop_drop]
  have hc : r.pos + (r.buf.length - r.pos) = r.buf.length := by omega
  rw [hc, List.drop_length, List.append_nil]

/-- C2 (amended): for a wrapped-mode write of `0 < len p ≤ max_capacity` from
a cursor `c < max_capacity` on a full allocation, `Write` accepts all of `p`,
the storage is updated exactly as the specification's copy describes
(`ringWriteSpec`), and the cursor becomes `(c + len p) mod max_capacity` when
the write reaches the end of the storage — but `0` when it falls short of the
end, where the code resets the cursor instead of advancing it. -/
theorem c2_ring_write_amended (alloc : Nat → Bool) (p : List Byte)
    (r : RingBuffer) (hr : r.ringMode = true)
    (hlen : r.buf.length = r.maxSize) (hpos : r.pos < r.maxSize)
    (hp0 : 0 < p.length) (hpM : p.length ≤ r.maxSize) :
    (Write alloc p r).1 = Except.ok p.length ∧
      ((Write alloc p r).2).buf = ringWriteSpec r.buf r.pos p ∧
      ((Write alloc p r).2).pos =
        (if r.maxSize ≤ r.pos + p.length then (r.pos + p.length) % r.maxSize
         else 0) := by
  rw [Write, if_pos hr]
  refine ⟨writeRing_fst p r, ?_⟩
  rw [writeRing_snd_eq p r (by omega)]
  by_cases hw : r.pos + p.length ≤ r.buf.length
  · rw [if_neg (by omega : ¬ p.length > min (r.buf.length - r.pos) p.length)]
    constructor
    · show (copyAt r.buf r.pos p).1 = ringWriteSpec r.buf r.pos p
      rw [copyAt_ring_fit p r (by omega) hw]
      simp only [ringWriteSpec]
      have hfit : min (r.buf.length - r.pos) p.length = p.length := by omega
      rw [hfit, List.drop_length, List.take_length]
      simp
    · show (0 : Nat) = _
      by_cases he : r.maxSize ≤ r.pos + p.length
      · rw [if_pos he]
        have hme : r.pos + p.length = r.maxSize := by omega
        rw [hme, Nat.mod_self]
      · rw [if_neg he]
  · rw [if_pos (by omega : p.length > min (r.buf.length - r.pos) p.length)]
    have hfit : min (r.buf.length - r.pos) p.length = r.buf.length - r.pos := by
      omega
    have hc1 := copyAt_ring_wrap p r (by omega) (by omega)
    have hc1len : ((copyAt r.buf r.pos p).1).length = r.buf.length :=
      copyAt_fst_length r.buf r.pos p
    have hdlen : (p.drop (r.buf.length - r.pos)).length =
        p.length - (r.buf.length - r.pos) := by
      rw [List.length_drop]
    constructor
    · show (goCopy (copyAt r.buf r.pos p).1
        (p.drop (min (r.buf.length - r.pos) p.length))).1 =
          ringWriteSpec r.buf r.pos p
      rw [hfit]
      simp only [goCopy]
      rw [hc1len, hdlen]
      have hn2 : min r.buf.length (p.length - (r.buf.length - r.pos)) =
          p.length - (r.buf.length - r.pos) := by omega
      rw [hn2]
      have htk : (p.drop (r.buf.length - r.pos)).take
          (p.length - (r.buf.length - r.pos)) = p.drop (r.buf.length - r.pos) := by
        refine List.take_of_length_le ?_
        rw [List.length_drop]
      rw [htk, hc1]
      have hdap : (r.buf.take r.pos ++ p.take (r.buf.length - r.pos)).drop
          (p.length - (r.buf.length - r.pos)) =
          (r.buf.take r.pos).drop (p.length - (r.buf.length - r.pos)) ++
            p.take (r.buf.length - r.pos) := by
        refine List.drop_append_of_le_length ?_
        rw [List.length_take]
        omega
      rw [hdap]
      simp only [ringWriteSpec]
      rw [hfit, hdlen]
      have hend : r.pos + (r.buf.length - r.pos) = r.buf.length := by omega
      rw [hend, List.drop_length, List.append_nil, List.append_assoc]
    · show (goCopy (copyAt r.buf r.pos p).1
        (p.drop (min (r.buf.length - r.pos) p.length))).2 = _
      rw [hfit]
      simp only [goCopy_snd]
      rw [hc1len, hdlen]
      rw [if_pos (by omega : r.maxSize ≤ r.pos + p.length)]
      have hmod : (r.pos + p.length) % r.maxSize = r.pos + p.length - r.maxSize := by
        rw [Nat.mod_eq_sub_mod (by omega)]
        exact Nat.mod_eq_of_lt (by omega)
      rw [hmod]
      omega

/-- C2 counterexample: at the specification's concrete wrapped state
(storage `"abcdefg"`, cursor 2) writing `"123"` does not leave cursor 5 with
`Bytes() == "123fgab"`: the code resets the cursor to 0 (and `Bytes()`
returns `"ab123fg"`). -/
theorem c2_counterexample :
    ¬ (((Write allocTrue c2Input c2State).2).pos = 5 ∧
        Bytes ((Write allocTrue c2Input c2State).2) =
          [49, 50, 51, 102, 103, 97, 98]) := by
  decide

/-- Witness for C2 (amended) at the walkthrough state: the hypotheses hold
there and the conclusion follows by applying the theorem. -/
theorem c2_ring_write_amended_witness :
    (c2State.ringMode = true ∧ c2State.buf.length = c2State.maxSize ∧
        c2State.pos < c2State.maxSize ∧ 0 < c2Input.length ∧
        c2Input.length ≤ c2State.maxSize) ∧
      (Write allocTrue c2Input c2State).1 = Except.ok c2Input.length ∧
        ((Write allocTrue c2Input c2State).2).buf =
          ringWriteSpec c2State.buf c2State.pos c2Input ∧
        ((Write allocTrue c2Input c2State).2).pos =
          (if c2State.maxSize ≤ c2State.pos + c2Input.length then
            (c2State.pos + c2Input.length) % c2State.maxSize
          else 0) :=
  ⟨⟨rfl, rfl, by decide, by decide, by decide⟩,
    c2_ring_write_amended allocTrue c2Input c2State rfl rfl (by decide)
      (by decide) (by decide)⟩

/-! ### C1 — the wrapped-mode content guarantee fails on the code -/

/-- C1 (evaluation at the failing input): on `NewRingBuffer 0 4`, writing
`[1,2,3,4]` and then `[5,6]` wraps the accumulator, after which `Bytes`
returns `[5,6,3,4]` — a sequence of length 4, but not the last 4 bytes
`[3,4,5,6]` of the submitted stream: a wrapped-mode write that ends before
the end of the storage resets the cursor to 0 instead of advancing it, so
the rotation read-out loses the oldest-to-newest order. -/
theorem c1_wrapped_bytes_divergence :
    (writeList [[1, 2, 3, 4], [5, 6]] (NewRingBuffer 0 4)).ringMode = true ∧
      Bytes (writeList [[1, 2, 3, 4], [5, 6]] (NewRingBuffer 0 4)) = [5, 6, 3, 4] ∧
      (Bytes (writeList [[1, 2, 3, 4], [5, 6]] (NewRingBuffer 0 4))).length = 4 ∧
      lastN 4 ([[1, 2, 3, 4], [5, 6]].flatten) = [3, 4, 5, 6] ∧
      Bytes (writeList [[1, 2, 3, 4], [5, 6]] (NewRingBuffer 0 4)) ≠
        lastN 4 ([[1, 2, 3, 4], [5, 6]].flatten) := by
  decide

/-! ### C6 — the doubling growth schedule under single-byte writes -/

theorem doubleUntil_pow2 (t j : Nat) :
    doubleUntil t (2 ^ j) = 2 ^ max j (Nat.clog 2 t) := by
  refine doubleUntilF_pow2 t t j ?_
  have h1 : t < 2 ^ t := Nat.lt_two_pow t
  have h0 : 0 < 2 ^ j := pow_pos (by omega) j
  have h2 : 1 * 2 ^ t ≤ 2 ^ j * 2 ^ t := Nat.mul_le_mul_right _ (by omega)
  omega

theorem np2_ge (k : Nat) : k ≤ 2 ^ Nat.clog 2 k :=
  Nat.le_pow_clog one_lt_two k

theorem np2_mono (k m : Nat) (h : k ≤ m) :
    2 ^ Nat.clog 2 k ≤ 2 ^ Nat.clog 2 m :=
  Nat.pow_le_pow_right (by omega) (Nat.clog_mono_right _ h)

theorem np2_stable (k : Nat) (h : k + 1 ≤ 2 ^ Nat.clog 2 k) :
    2 ^ Nat.clog 2 (k + 1) = 2 ^ Nat.clog 2 k :=
  le_antisymm
    (Nat.pow_le_pow_right (by omega) ((Nat.le_pow_iff_clog_le one_lt_two).1 h))
    (np2_mono k (k + 1) (Nat.le_succ k))

theorem writeAfterGrow_overflow_snd (p : List Byte) (r : RingBuffer)
    (hof : r.buf.length < r.pos + p.length) :
    (writeAfterGrow p r).2 = (writeRing p { r with ringMode := true }).2 := by
  rw [writeAfterGrow, if_neg (by omega)]

/-- Effect of a successful one-byte `Write` on a linear-mode state whose
cursor is strictly below the ceiling: the buffer grows to `growTarget` when
it cannot hold one more byte, the cursor advances, and the mode flips exactly
when the cursor reaches the ceiling. -/
theorem Write_single_step (b : Byte) (r : RingBuffer)
    (hring : r.ringMode = false) (hpos : r.pos ≤ r.buf.length)
    (hlm : r.buf.length ≤ r.maxSize) (hlt : r.pos + 1 ≤ r.maxSize) :
    ((Write allocTrue [b] r).2).maxSize = r.maxSize ∧
      ((Write allocTrue [b] r).2).buf.length =
        (if r.buf.length < r.pos + 1 then growTarget r (r.pos + 1)
         else r.buf.length) ∧
      ((Write allocTrue [b] r).2).pos =
        (if r.pos + 1 = r.maxSize then 0 else r.pos + 1) ∧
      ((Write allocTrue [b] r).2).ringMode =
        (if r.pos + 1 = r.maxSize then true else false) := by
  have hb1 : ([b] : List Byte).length = 1 := rfl
  rw [Write, if_neg (by simp [hring]), write_allocTrue_eq, hb1]
  set r1 := (if r.buf.length < r.pos + 1 then
    (Grow allocTrue (r.pos + 1) r).2 else r) with hr1
  have hpos1 : r1.pos = r.pos := by
    rw [hr1]
    split
    · exact (Grow_snd_fields allocTrue (r.pos + 1) r).1
    · rfl
  have hmax1 : r1.maxSize = r.maxSize := by
    rw [hr1]
    split
    · exact (Grow_snd_fields allocTrue (r.pos + 1) r).2.2.2
    · rfl
  have hring1 : r1.ringMode = r.ringMode := by
    rw [hr1]
    split
    · exact (Grow_snd_fields allocTrue (r.pos + 1) r).2.2.1
    · rfl
  have hlen1 : r1.buf.length =
      (if r.buf.length < r.pos + 1 then growTarget r (r.pos + 1)
       else r.buf.length) := by
    rw [hr1]
    split
    · exact Grow_ok_snd allocTrue (r.pos + 1) r (Grow_allocTrue_fst (r.pos + 1) r)
    · rfl
  have hfit : r1.pos + ([b] : List Byte).length ≤ r1.buf.length := by
    rw [hb1, hpos1, hlen1]
    split
    · obtain ⟨g1, g2, g3, g4⟩ := growTarget_props r (r.pos + 1)
      omega
    · omega
  rw [writeAfterGrow_fit_snd [b] r1 hfit, hb1]
  by_cases hflip : r.pos + 1 = r.maxSize
  · rw [if_pos (by rw [hpos1, hmax1]; exact hflip)]
    refine ⟨hmax1, ?_, ?_, ?_⟩
    · show ((copyAt r1.buf r1.pos [b]).1).length = _
      rw [copyAt_fst_length]
      exact hlen1
    · show (0 : Nat) = _
      rw [if_pos hflip]
    · show true = _
      rw [if_pos hflip]
  · rw [if_neg (by rw [hpos1, hmax1]; exact hflip)]
    refine ⟨hmax1, ?_, ?_, ?_⟩
    · show ((copyAt r1.buf r1.pos [b]).1).length = _
      rw [copyAt_fst_length]
      exact hlen1
    · show r1.pos + 1 = _
      rw [if_neg hflip, hpos1]
    · show r1.ringMode = _
      rw [if_neg hflip, hring1, hring]

/-- State characterization after `k` single-byte writes into
`NewRingBuffer 0 M`: the allocation is `min M (2 ^ ⌈log₂ k⌉)`, the cursor is
`k` while `k < M`, and the accumulator is in ring mode from `k = M` on. -/
theorem singleWrites_state (M : Nat) (bs : List Byte) :
    (writeList (bs.map (fun x => ([x] : List Byte))) (NewRingBuffer 0 M)).maxSize = M ∧
      (writeList (bs.map (fun x => ([x] : List Byte))) (NewRingBuffer 0 M)).buf.length =
        (if bs.length = 0 then 0 else min M (2 ^ Nat.clog 2 bs.length)) ∧
      (bs.length = 0 →
        (writeList (bs.map (fun x => ([x] : List Byte))) (NewRingBuffer 0 M)).pos = 0 ∧
        (writeList (bs.map (fun x => ([x] : List Byte))) (NewRingBuffer 0 M)).ringMode = false) ∧
      (0 < bs.length → bs.length < M →
        (writeList (bs.map (fun x => ([x] : List Byte))) (NewRingBuffer 0 M)).ringMode = false ∧
        (writeList (bs.map (fun x => ([x] : List Byte))) (NewRingBuffer 0 M)).pos = bs.length) ∧
      (0 < bs.length → M ≤ bs.length →
        (writeList (bs.map (fun x => ([x] : List Byte))) (NewRingBuffer 0 M)).ringMode = true) := by
  induction bs using List.reverseRecOn with
  | nil =>
    refine ⟨rfl, ?_, fun _ => ⟨rfl, rfl⟩, ?_, ?_⟩
    · simp [writeList, NewRingBuffer]
    · intro h _
      exact absurd h (by simp)
    · intro h _
      exact absurd h (by simp)
  | append_singleton l b ih =>
    have hsplit : writeList ((l ++ [b]).map (fun x => ([x] : List Byte))) (NewRingBuffer 0 M) =
        (Write allocTrue [b]
          (writeList (l.map (fun x => ([x] : List Byte))) (NewRingBuffer 0 M))).2 := by
      simp only [List.map_append, List.map_cons, List.map_nil, writeList,
        List.foldl_append, List.foldl_cons, List.foldl_nil]
    rw [hsplit]
    set r := writeList (l.map (fun x => ([x] : List Byte))) (NewRingBuffer 0 M) with hr
    obtain ⟨i1, i2, i3, i4, i5⟩ := ih
    have hlen : (l ++ [b]).length = l.length + 1 := by simp
    rw [hlen]
    by_cases hk0 : l.length = 0
    · obtain ⟨hpos0, hringf⟩ := i3 hk0
      have hlen0 : r.buf.length = 0 := by
        have h := i2
        rw [if_pos hk0] at h
        exact h
      by_cases hM0 : M = 0
      · subst hM0
        rw [Write, if_neg (by simp [hringf]), write_allocTrue_eq]
        have hb1 : ([b] : List Byte).length = 1 := rfl
        rw [hb1, if_pos (by omega)]
        set r1 := (Grow allocTrue (r.pos + 1) r).2 with hr1
        have hlen1 : r1.buf.length = growTarget r (r.pos + 1) :=
          Grow_ok_snd _ _ _ (Grow_allocTrue_fst _ _)
        have hgt0 : growTarget r (r.pos + 1) = 0 := by
          have g1 := (growTarget_props r (r.pos + 1)).1
          omega
        have hpos1 : r1.pos = r.pos := (Grow_snd_fields _ _ _).1
        have hmax1 : r1.maxSize = r.maxSize := (Grow_snd_fields _ _ _).2.2.2
        rw [writeAfterGrow_overflow_snd [b] r1 (by rw [hb1]; omega)]
        refine ⟨?_, ?_, ?_, ?_, ?_⟩
        · rw [writeRing_maxSize]
          show r1.maxSize = 0
          rw [hmax1]
          exact i1
        · rw [writeRing_buf_length, if_neg (by omega), Nat.zero_min]
          show r1.buf.length = 0
          rw [hlen1]
          exact hgt0
        · intro h
          exact absurd h (by omega)
        · intro _ hlt
          exact absurd hlt (by omega)
        · intro _ _
          rw [writeRing_ringMode]
      · have hstep := Write_single_step b r hringf (by omega) (by omega) (by omega)
        obtain ⟨s1, s2, s3, s4⟩ := hstep
        have hgt : growTarget r (r.pos + 1) = min M (2 ^ Nat.clog 2 (l.length + 1)) := by
          have hdu : doubleUntil (r.pos + 1) 1 = 2 ^ Nat.clog 2 (r.pos + 1) := by
            have h := doubleUntil_pow2 (r.pos + 1) 0
            simpa using h
          simp only [growTarget]
          rw [if_pos hlen0, hdu, i1, hpos0, hk0]
          split <;> omega
        have hL : ((Write allocTrue [b] r).2).buf.length =
            min M (2 ^ Nat.clog 2 (l.length + 1)) := by
          rw [s2, if_pos (by omega)]
          exact hgt
        refine ⟨?_, ?_, ?_, ?_, ?_⟩
        · rw [s1, i1]
        · rw [if_neg (by omega)]
          exact hL
        · intro h
          exact absurd h (by omega)
        · intro _ hlt
          refine ⟨?_, ?_⟩
          · rw [s4, if_neg (by omega)]
          · rw [s3, if_neg (by omega)]
            omega
        · intro _ hge
          rw [s4, if_pos (by omega)]
    · have hk1 : 0 < l.length := by omega
      have hlenr : r.buf.length = min M (2 ^ Nat.clog 2 l.length) := by
        have h := i2
        rw [if_neg hk0] at h
        exact h
      have hnp2 : l.length ≤ 2 ^ Nat.clog 2 l.length := np2_ge l.length
      by_cases hkM : l.length < M
      · obtain ⟨hringf, hposk⟩ := i4 hk1 hkM
        have hstep := Write_single_step b r hringf (by omega) (by omega) (by omega)
        obtain ⟨s1, s2, s3, s4⟩ := hstep
        have hL : ((Write allocTrue [b] r).2).buf.length =
            min M (2 ^ Nat.clog 2 (l.length + 1)) := by
          by_cases hg : r.buf.length < r.pos + 1
          · have hlk : r.buf.length = l.length := by omega
            have hpow : l.length = 2 ^ Nat.clog 2 l.length := by omega
            have hdu : doubleUntil (l.length + 1) l.length =
                2 ^ Nat.clog 2 (l.length + 1) := by
              nth_rewrite 2 [hpow]
              rw [doubleUntil_pow2]
              rw [Nat.max_eq_right (Nat.clog_mono_right 2 (Nat.le_succ _))]
            rw [s2, if_pos hg]
            simp only [growTarget]
            rw [if_neg (by omega : ¬ r.buf.length = 0), hposk, hlk, hdu, i1]
            split <;> omega
          · rw [s2, if_neg hg]
            have hmono := np2_mono l.length (l.length + 1) (Nat.le_succ _)
            by_cases hcase : 2 ^ Nat.clog 2 l.length < M
            · have hstab : 2 ^ Nat.clog 2 (l.length + 1) = 2 ^ Nat.clog 2 l.length :=
                np2_stable l.length (by omega)
              rw [hstab]
              omega
            · omega
        refine ⟨?_, ?_, ?_, ?_, ?_⟩
        · rw [s1, i1]
        · rw [if_neg (by omega)]
          exact hL
        · intro h
          exact absurd h (by omega)
        · intro _ hlt
          refine ⟨?_, ?_⟩
          · rw [s4, if_neg (by omega)]
          · rw [s3, if_neg (by omega)]
            omega
        · intro _ hge
          rw [s4, if_pos (by omega)]
      · have hge : M ≤ l.length := by omega
        have hringt := i5 hk1 (by omega)
        rw [Write, if_pos hringt]
        refine ⟨?_, ?_, ?_, ?_, ?_⟩
        · rw [writeRing_maxSize]
          exact i1
        · rw [writeRing_buf_length, if_neg (by omega), hlenr]
          have h2 := np2_ge (l.length + 1)
          have hmono := np2_mono l.length (l.length + 1) (Nat.le_succ _)
          omega
        · intro h
          exact absurd h (by omega)
        · intro _ hlt
          exact absurd hlt (by omega)
        · intro _ _
          rw [writeRing_ringMode]
          exact hringt

/-- C6: starting from `NewRingBuffer 0 M`, after any number `k ≥ 1` of
single-byte writes the observed `Cap()` is `min M (2 ^ ⌈log₂ k⌉)` — the
canonical doubling sequence 1, 2, 4, 8, … for as long as the doubled size is
below `M`, snapping to exactly `M` (never an intermediate value) at the
first step whose doubled size reaches or exceeds `M`. -/
theorem c6_doubling_growth (M : Nat) (bs : List Byte) :
    Cap (writeList (bs.map (fun x => ([x] : List Byte))) (NewRingBuffer 0 M)) =
      (if bs.length = 0 then 0 else min M (2 ^ Nat.clog 2 bs.length)) := by
  rw [Cap]
  exact (singleWrites_state M bs).2.1

/-! ### C8 — the `New(0, 21)` walkthrough -/

/-- C8 counterexample: after the twenty writes `"0"`..`"19"` into
`New(0, 21)`, the written counter is not 28 (it is 30 = 10·1 + 10·2), and
the content is not the last 21 bytes of the submitted stream (the wrapped
cursor was reset by the short ring writes). -/
theorem c8_counterexample :
    Written (writeList c8Writes (NewRingBuffer 0 21)) ≠ 28 ∧
      Bytes (writeList c8Writes (NewRingBuffer 0 21)) ≠
        lastN 21 c8Writes.flatten := by
  decide

/-- C8 (amended): after the twenty writes `"0"`..`"19"` into `New(0, 21)`,
`Written() = 30`, `Cap() = 21`, and `Bytes()` is the concrete byte sequence
`"196345678910111213141"` the code produces (not the last 21 bytes of the
stream, because short wrapped-mode writes reset the cursor to 0). -/
theorem c8_walkthrough_amended :
    Written (writeList c8Writes (NewRingBuffer 0 21)) = 30 ∧
      Cap (writeList c8Writes (NewRingBuffer 0 21)) = 21 ∧
      Bytes (writeList c8Writes (NewRingBuffer 0 21)) =
        [49, 57, 54, 51, 52, 53, 54, 55, 56, 57, 49, 48, 49, 49, 49, 50,
         49, 51, 49, 52, 49] := by
  decide

end Ringbuffer
